import Mathlib

/-!
Inventory record service: ID allocation, persistence and listing.

A shallow embedding of `main.go`: the two HTTP handlers `createProduct` and
`getProducts`, the Badger transactions they run (`db.View`, `db.Update`,
`txn.Get`, `txn.Set`, the prefix iterator) and the `strconv` / `fmt` calls that
build keys and counter values.

* Byte strings (`[]byte`, and Go `string`s used as keys and values) are lists of
  byte values.
* Go `int` is the 64-bit signed integer: values are `Int`, and `nextID+1` is
  reduced into the signed 64-bit range by `wrapInt`.
* The key-value engine is a list of entries kept in ascending byte-lexicographic
  key order; a transaction buffers its writes and applies them on commit.
* Engine failures are injected through explicit fault arguments, one per engine
  call, so that every error branch of the handlers can be exercised.
* `json.Marshal` / `json.Unmarshal` are arguments of the handlers.
-/

namespace Inventory

/-! ## Byte strings -/

/-- A byte string: Go `[]byte`. -/
abbrev Bytes := List Nat

/-- The bytes of an ASCII string literal: Go `[]byte("...")`. -/
def str (s : String) : Bytes := s.toList.map Char.toNat

/-- Byte-wise lexicographic "less than", the key order of the engine
(`bytes.Compare(a, b) < 0`). -/
def bytesLt : Bytes → Bytes → Bool
  | [], [] => false
  | [], _ :: _ => true
  | _ :: _, [] => false
  | a :: as, b :: bs => decide (a < b) || (decide (a = b) && bytesLt as bs)

/-- Whether `key` starts with `pfx` (`bytes.HasPrefix(key, pfx)`). -/
def hasPfx : Bytes → Bytes → Bool
  | _, [] => true
  | [], _ :: _ => false
  | k :: ks, p :: ps => decide (k = p) && hasPfx ks ps

/-! ## `strconv.Itoa`, `strconv.Atoi`, machine integers -/

/-- Width of Go `int` (`strconv.IntSize`). -/
def intSize : Nat := 64

/-- Smallest `int`. -/
def minInt : Int := -(2 ^ (intSize - 1))

/-- Largest `int`. -/
def maxInt : Int := 2 ^ (intSize - 1) - 1

/-- Two's-complement reduction of a mathematical integer into the `int` range:
the value Go computes for an `int` expression whose exact result is `x`. -/
def wrapInt (x : Int) : Int := (x + 2 ^ (intSize - 1)) % 2 ^ intSize - 2 ^ (intSize - 1)

/-- Decimal digits of `n`, most significant first, prepended to `acc`
(the digit loop of `strconv.formatBits`, which fills its buffer from the end).
`fuel` bounds the number of digits produced. -/
def fmtDigits : Nat → Nat → Bytes → Bytes
  | 0, _, acc => acc
  | fuel + 1, n, acc =>
    if n < 10 then (48 + n) :: acc
    else fmtDigits fuel (n / 10) ((48 + n % 10) :: acc)

/-- Decimal text of a natural number (`strconv.FormatUint(n, 10)`). -/
def fmtNat (n : Nat) : Bytes := fmtDigits (n + 1) n []

/-- Decimal text of an integer: `strconv.Itoa`, also what `%d` prints. -/
def itoa (i : Int) : Bytes :=
  if i < 0 then 45 :: fmtNat i.natAbs else fmtNat i.natAbs

/-- Errors seen by the handlers. -/
inductive Err where
  /-- `badger.ErrKeyNotFound`. -/
  | keyNotFound
  /-- Any other engine error (I/O, conflict, closed handle, ...). -/
  | engine (msg : String)
  /-- `strconv.ErrSyntax` from `Atoi`. -/
  | atoiSyntax
  /-- `strconv.ErrRange` from `Atoi`. -/
  | atoiRange
  /-- Error of `json.Marshal` / `json.Unmarshal` / request binding. -/
  | json (msg : String)
  deriving DecidableEq, Repr

deriving instance DecidableEq for Except

/-- Reads a run of decimal digits, accumulating into `acc`; `none` on a byte
that is not a digit (the digit loop of `strconv.ParseUint` in base 10). -/
def parseDigits : Bytes → Nat → Option Nat
  | [], acc => some acc
  | c :: cs, acc =>
    if 48 ≤ c ∧ c ≤ 57 then parseDigits cs (acc * 10 + (c - 48)) else none

/-- Parses an unsigned magnitude with the sign already removed, then applies the
sign and the range check of `strconv.ParseInt(s, 10, 0)`. -/
def atoiSigned (neg : Bool) (digits : Bytes) : Except Err Int :=
  match digits with
  | [] => .error .atoiSyntax
  | _ :: _ =>
    match parseDigits digits 0 with
    | none => .error .atoiSyntax
    | some un =>
      if neg then
        if (un : Int) ≤ 2 ^ (intSize - 1) then .ok (-(un : Int)) else .error .atoiRange
      else
        if (un : Int) < 2 ^ (intSize - 1) then .ok (un : Int) else .error .atoiRange

/-- Decimal integer parsing: `strconv.Atoi`. An optional sign, then at least one
digit and nothing else; the value must fit `int`. -/
def atoi (s : Bytes) : Except Err Int :=
  match s with
  | [] => .error .atoiSyntax
  | 43 :: rest => atoiSigned false rest
  | 45 :: rest => atoiSigned true rest
  | _ :: _ => atoiSigned false s

/-! ## The key-value engine -/

/-- Contents of the engine: entries `(key, value)` in ascending key order. -/
abbrev Store := List (Bytes × Bytes)

/-- The store right after `badger.Open` on a fresh directory. -/
def Store.empty : Store := []

/-- Value stored under `key`, if any. -/
def Store.get : Store → Bytes → Option Bytes
  | [], _ => none
  | (k, v) :: rest, key => if key = k then some v else Store.get rest key

/-- Writes `val` under `key`, replacing an existing entry or inserting at the
position given by the key order. -/
def Store.set : Store → Bytes → Bytes → Store
  | [], key, val => [(key, val)]
  | (k, v) :: rest, key, val =>
    if key = k then (key, val) :: rest
    else if bytesLt key k then (key, val) :: (k, v) :: rest
    else (k, v) :: Store.set rest key val

/-- The store invariant: keys strictly ascending in byte-lexicographic order. -/
def Store.WF (s : Store) : Prop := s.Pairwise (fun a b => bytesLt a.1 b.1 = true)

/-- An entry handed out by `txn.Get` or by an iterator (`*badger.Item`). -/
structure Item where
  key : Bytes
  val : Bytes
  deriving DecidableEq, Repr

/-- A transaction: the snapshot it reads from and the writes it has buffered,
oldest first. -/
structure Txn where
  snapshot : Store
  pending : List (Bytes × Bytes)
  deriving DecidableEq, Repr

/-- A fresh transaction on the current contents (`db.NewTransaction`). -/
def Txn.start (db : Store) : Txn := ⟨db, []⟩

/-- What the transaction sees: its snapshot with its own writes applied. -/
def Txn.contents (txn : Txn) : Store :=
  txn.pending.foldl (fun s kv => s.set kv.1 kv.2) txn.snapshot

/-- The call `txn.Get(key)`. With `fault = some msg` the engine call fails with
an error other than `ErrKeyNotFound`. -/
def Txn.get (fault : Option String) (txn : Txn) (key : Bytes) : Except Err Item :=
  match fault with
  | some msg => .error (.engine msg)
  | none =>
    match txn.contents.get key with
    | none => .error .keyNotFound
    | some v => .ok ⟨key, v⟩

/-- The call `item.Value(fn)`: reads the value and runs `fn` on it. With
`fault = some msg` reading the value fails and `fn` is not run. -/
def Item.value {α : Type} (fault : Option String) (item : Item)
    (fn : Bytes → Except Err α) : Except Err α :=
  match fault with
  | some msg => .error (.engine msg)
  | none => fn item.val

/-- The call `txn.Set(key, val)`: buffers the write. With `fault = some msg` the
call fails and buffers nothing. -/
def Txn.set (fault : Option String) (txn : Txn) (key val : Bytes) : Except Err Txn :=
  match fault with
  | some msg => .error (.engine msg)
  | none => .ok { txn with pending := txn.pending ++ [(key, val)] }

/-- The call `db.View(fn)`: runs `fn` in a read-only transaction, which is then
discarded. -/
def dbView {α : Type} (db : Store) (fn : Txn → Except Err α) : Except Err α :=
  fn (Txn.start db)

/-- The call `db.Update(fn)`: runs `fn` in a read-write transaction; if `fn`
fails the transaction is discarded, otherwise it is committed. With
`commitFault = some msg` the commit fails and nothing is written. Returns the
error (if any) and the contents of the engine afterwards. -/
def dbUpdate (commitFault : Option String) (db : Store)
    (fn : Txn → Except Err Txn) : Except Err Unit × Store :=
  match fn (Txn.start db) with
  | .error e => (.error e, db)
  | .ok txn =>
    match commitFault with
    | some msg => (.error (.engine msg), db)
    | none => (.ok (), txn.contents)

/-- Entries whose key starts with `pfx`, in key order: the items visited by
`for it.Rewind(); it.Valid(); it.Next()` on an iterator with `opts.Prefix = pfx`. -/
def Txn.iterate (txn : Txn) (pfx : Bytes) : List Item :=
  (txn.contents.filter (fun kv => hasPfx kv.1 pfx)).map (fun kv => ⟨kv.1, kv.2⟩)

/-! ## The data model and the handlers -/

/-- A `float64`, carried as its IEEE-754 bit pattern: the handlers store and
return prices and never compute with them. -/
structure Float64 where
  bits : Nat
  deriving DecidableEq, Repr, Inhabited

/-- The Go struct `Product`. -/
structure Product where
  ID : Int
  Name : Bytes
  Quantity : Int
  Price : Float64
  Description : Bytes
  deriving DecidableEq, Repr, Inhabited

/-- What a handler writes to the client: the status code and the value passed to
`c.JSON`. -/
inductive Response where
  /-- Status 400 with the binding error. -/
  | badRequest (e : Err)
  /-- Status 500 with the error. -/
  | internalServerError (e : Err)
  /-- Status 201 with the stored product. -/
  | created (p : Product)
  /-- Status 200 with the slice of products. -/
  | ok (ps : List Product)
  deriving DecidableEq, Repr

/-- Engine failures injected into one run of `createProduct`, one field per
engine call in the order the handler makes them. -/
structure CreateFaults where
  /-- `txn.Get([]byte("next_id"))` fails (not with `ErrKeyNotFound`). -/
  get : Option String
  /-- `item.Value` on the counter fails. -/
  value : Option String
  /-- `txn.Set` of the record fails. -/
  setProduct : Option String
  /-- `txn.Set` of the counter fails. -/
  setNextID : Option String
  /-- The commit of `db.Update` fails. -/
  commit : Option String
  deriving DecidableEq, Repr

/-- No engine call fails. -/
def CreateFaults.none : CreateFaults := ⟨.none, .none, .none, .none, .none⟩

/-- The counter key `[]byte("next_id")`. -/
def nextIDKey : Bytes := str "next_id"

/-- The record key `[]byte(fmt.Sprintf("product:%d", id))`. -/
def productKey (id : Int) : Bytes := str "product:" ++ itoa id

/-- First transaction of `createProduct` (the `db.View` under `// Get next ID`):
the value assigned to `nextID`, or the error returned by `db.View`. -/
def readNextID (φ : CreateFaults) (db : Store) : Except Err Int :=
  dbView db (fun txn =>
    match txn.get φ.get nextIDKey with
    | .error .keyNotFound => .ok 1
    | .error e => .error e
    | .ok item => item.value φ.value atoi)

/-- Second transaction of `createProduct` (the `db.Update` under
`// Save product`), for the product with its ID already set to `nextID`. -/
def saveProduct (marshal : Product → Except Err Bytes) (φ : CreateFaults) (db : Store)
    (product : Product) (nextID : Int) : Except Err Unit × Store :=
  dbUpdate φ.commit db (fun txn =>
    match marshal product with
    | .error e => .error e
    | .ok productData =>
      match txn.set φ.setProduct (productKey product.ID) productData with
      | .error e => .error e
      | .ok txn => txn.set φ.setNextID nextIDKey (itoa (wrapInt (nextID + 1))))

/-- The handler `createProduct`. `body` is the outcome of
`c.ShouldBindJSON(&product)`. Returns the response and the contents of the
engine afterwards. -/
def createProduct (marshal : Product → Except Err Bytes) (φ : CreateFaults) (db : Store)
    (body : Except Err Product) : Response × Store :=
  match body with
  | .error e => (.badRequest e, db)
  | .ok product =>
    match readNextID φ db with
    | .error e => (.internalServerError e, db)
    | .ok nextID =>
      let product := { product with ID := nextID }
      match saveProduct marshal φ db product nextID with
      | (.error e, db') => (.internalServerError e, db')
      | (.ok (), db') => (.created product, db')

/-- The prefix of record keys, `[]byte("product:")`. -/
def productPfx : Bytes := str "product:"

/-- The loop of `getProducts`: decodes the visited items in order, appending to
`products`; stops at the first error. `valueFault key` makes `item.Value` fail
on the item with that key. -/
def decodeItems (unmarshal : Bytes → Except Err Product) (valueFault : Bytes → Option String) :
    List Item → List Product → Except Err (List Product)
  | [], products => .ok products
  | item :: rest, products =>
    match item.value (valueFault item.key) unmarshal with
    | .error e => .error e
    | .ok product => decodeItems unmarshal valueFault rest (products ++ [product])

/-- The handler `getProducts`. -/
def getProducts (unmarshal : Bytes → Except Err Product) (valueFault : Bytes → Option String)
    (db : Store) : Response :=
  match dbView db (fun txn => decodeItems unmarshal valueFault (txn.iterate productPfx) []) with
  | .error e => .internalServerError e
  | .ok products => .ok products

/-! ## Runs of the handlers -/

/-- The product carried by a 201 response. -/
def Response.product : Response → Option Product
  | .created p => some p
  | _ => none

/-- The ID carried by a 201 response. -/
def Response.id (r : Response) : Option Int := r.product.map (fun p => p.ID)

/-- Sequential requests: `createProduct` run on each draft in turn, each call
finishing before the next begins and no engine call failing. Returns the
responses in order and the final contents of the engine. -/
def createAll (marshal : Product → Except Err Bytes) : Store → List Product → List Response × Store
  | db, [] => ([], db)
  | db, d :: ds =>
    let r := createProduct marshal CreateFaults.none db (.ok d)
    let rest := createAll marshal r.2 ds
    (r.1 :: rest.1, rest.2)

/-- The drafts with consecutive IDs injected, the first one getting `c`: the
records a run of `createAll` is expected to store. -/
def withIDs (c : Int) : List Product → List Product
  | [] => []
  | d :: ds => { d with ID := c } :: withIDs (c + 1) ds

/-- The counter entry says that `c` is the next ID: it is absent (and `c = 1`),
or it holds the decimal text of `c` as an `int`. -/
def CounterAt (db : Store) (c : Int) : Prop :=
  (c = 1 ∧ db.get nextIDKey = none) ∨ db.get nextIDKey = some (itoa (wrapInt c))

/-- The product an entry decodes to (a default product if it does not decode). -/
def decoded (unmarshal : Bytes → Except Err Product) (kv : Bytes × Bytes) : Product :=
  match unmarshal kv.2 with
  | .ok p => p
  | .error _ => default

/-- Progress of one `createProduct` request through its two transactions. -/
inductive Call where
  /-- The body is bound; no transaction has run. -/
  | bound (draft : Product)
  /-- The `db.View` has returned and `nextID` is set. -/
  | counterRead (draft : Product) (nextID : Int)
  /-- The handler has written its response. -/
  | finished (resp : Response)
  deriving DecidableEq, Repr

/-- Runs the next transaction of a request against the engine, atomically. -/
def Call.step (marshal : Product → Except Err Bytes) (db : Store) : Call → Store × Call
  | .bound draft =>
    match readNextID CreateFaults.none db with
    | .error e => (db, .finished (.internalServerError e))
    | .ok nextID => (db, .counterRead draft nextID)
  | .counterRead draft nextID =>
    let product := { draft with ID := nextID }
    match saveProduct marshal CreateFaults.none db product nextID with
    | (.error e, db') => (db', .finished (.internalServerError e))
    | (.ok (), db') => (db', .finished (.created product))
  | .finished resp => (db, .finished resp)

/-- Concurrent requests: `schedule` lists, in order, which request runs its next
transaction. -/
def runSchedule (marshal : Product → Except Err Bytes) :
    Store → List Call → List Nat → Store × List Call
  | db, calls, [] => (db, calls)
  | db, calls, i :: schedule =>
    match calls[i]? with
    | none => runSchedule marshal db calls schedule
    | some call =>
      let next := call.step marshal db
      runSchedule marshal next.1 (calls.set i next.2) schedule

/-! ## A concrete codec for running the model -/

/-- Splits at the first comma. -/
def splitComma : Bytes → Option (Bytes × Bytes)
  | [] => none
  | c :: cs => if c = 44 then some ([], cs) else (splitComma cs).map (fun p => (c :: p.1, p.2))

/-- An encoder that can be passed to the handlers in place of `json.Marshal` to
run them on concrete inputs: the ID, the quantity, the price bits and the length
of the name in decimal, each followed by a comma, then the name and the
description. -/
def exampleMarshal (p : Product) : Except Err Bytes :=
  .ok (itoa p.ID ++ [44] ++ itoa p.Quantity ++ [44] ++ fmtNat p.Price.bits ++ [44]
    ++ fmtNat p.Name.length ++ [44] ++ p.Name ++ p.Description)

/-- The decoder for `exampleMarshal`, in place of `json.Unmarshal`. -/
def exampleUnmarshal (b : Bytes) : Except Err Product :=
  match splitComma b with
  | none => .error (.json "id")
  | some (f₁, r₁) =>
    match splitComma r₁ with
    | none => .error (.json "quantity")
    | some (f₂, r₂) =>
      match splitComma r₂ with
      | none => .error (.json "price")
      | some (f₃, r₃) =>
        match splitComma r₃ with
        | none => .error (.json "name")
        | some (f₄, r₄) =>
          match atoi f₁, atoi f₂, parseDigits f₃ 0, parseDigits f₄ 0 with
          | .ok id, .ok quantity, some bits, some len =>
            if len ≤ r₄.length then .ok ⟨id, r₄.take len, quantity, ⟨bits⟩, r₄.drop len⟩
            else .error (.json "name")
          | _, _, _, _ => .error (.json "number")

/-- The draft of the spec scenario: `Price` is the `float64` nearest 9.99. -/
def widget : Product := ⟨0, str "Widget", 5, ⟨0x4023FAE147AE147B⟩, str "A widget"⟩

/-- A second draft. -/
def gadget : Product := ⟨0, str "Gadget", 0, ⟨0⟩, []⟩

/-! ## Decimal text: round trip and injectivity -/

theorem fmtDigits_acc (fuel n : Nat) (acc : Bytes) :
    fmtDigits fuel n acc = fmtDigits fuel n [] ++ acc := by
  induction fuel generalizing n acc with
  | zero => simp [fmtDigits]
  | succ f ih =>
    unfold fmtDigits
    split
    · simp
    · rw [ih (n / 10) ((48 + n % 10) :: acc), ih (n / 10) [48 + n % 10]]
      simp

theorem fmtDigits_fuel (f₁ f₂ n : Nat) (acc : Bytes) (h₁ : n < f₁) (h₂ : n < f₂) :
    fmtDigits f₁ n acc = fmtDigits f₂ n acc := by
  induction f₁ generalizing f₂ n acc with
  | zero => omega
  | succ f ih =>
    cases f₂ with
    | zero => omega
    | succ g =>
      simp only [fmtDigits]
      split
      · rfl
      · exact ih g (n / 10) _ (by omega) (by omega)

theorem fmtNat_lt (n : Nat) (h : n < 10) : fmtNat n = [48 + n] := by
  simp [fmtNat, fmtDigits, h]

theorem fmtNat_ge (n : Nat) (h : 10 ≤ n) : fmtNat n = fmtNat (n / 10) ++ [48 + n % 10] := by
  have h1 : ¬ n < 10 := by omega
  have h2 : n / 10 < n := by omega
  rw [fmtNat, fmtDigits, if_neg h1, fmtDigits_acc, fmtDigits_fuel n (n / 10 + 1) (n / 10) [] h2 (by omega), fmtNat]

theorem parseDigits_append (s : Bytes) (c acc : Nat) (hc : 48 ≤ c ∧ c ≤ 57) :
    parseDigits (s ++ [c]) acc = (parseDigits s acc).map (fun v => v * 10 + (c - 48)) := by
  induction s generalizing acc with
  | nil => simp [parseDigits, hc]
  | cons d ds ih =>
    simp only [List.cons_append, parseDigits]
    split
    · exact ih _
    · rfl

theorem parseDigits_fmtNat (n : Nat) : parseDigits (fmtNat n) 0 = some n := by
  induction n using Nat.strong_induction_on with
  | _ n ih =>
    by_cases h : n < 10
    · rw [fmtNat_lt n h]
      have : 48 ≤ 48 + n ∧ 48 + n ≤ 57 := by omega
      simp [parseDigits, this]
    · have h10 : 10 ≤ n := by omega
      rw [fmtNat_ge n h10, parseDigits_append _ _ _ (by omega), ih (n / 10) (by omega)]
      simp only [Option.map_some', Option.some.injEq]
      omega

theorem fmtNat_injective (a b : Nat) (h : fmtNat a = fmtNat b) : a = b := by
  have ha := parseDigits_fmtNat a
  rw [h, parseDigits_fmtNat b] at ha
  exact (Option.some.inj ha).symm

/-- The text of a natural number is not empty and begins with a digit. -/
theorem fmtNat_head (n : Nat) : ∃ c rest, fmtNat n = c :: rest ∧ 48 ≤ c ∧ c ≤ 57 := by
  induction n using Nat.strong_induction_on with
  | _ n ih =>
    by_cases h : n < 10
    · exact ⟨48 + n, [], fmtNat_lt n h, by omega, by omega⟩
    · obtain ⟨c, rest, hc, h1, h2⟩ := ih (n / 10) (by omega)
      exact ⟨c, rest ++ [48 + n % 10], by rw [fmtNat_ge n (by omega), hc]; rfl, h1, h2⟩

theorem itoa_injective (a b : Int) (h : itoa a = itoa b) : a = b := by
  unfold itoa at h
  obtain ⟨ca, ra, hca, ha1, ha2⟩ := fmtNat_head a.natAbs
  obtain ⟨cb, rb, hcb, hb1, hb2⟩ := fmtNat_head b.natAbs
  by_cases ha : a < 0 <;> by_cases hb : b < 0
  · rw [if_pos ha, if_pos hb] at h
    have := fmtNat_injective _ _ (List.cons.inj h).2
    omega
  · rw [if_pos ha, if_neg hb, hcb] at h
    have := (List.cons.inj h).1
    omega
  · rw [if_neg ha, if_pos hb, hca] at h
    have := (List.cons.inj h).1
    omega
  · rw [if_neg ha, if_neg hb] at h
    have := fmtNat_injective _ _ h
    omega

theorem atoiSigned_fmtNat (neg : Bool) (n : Nat) :
    atoiSigned neg (fmtNat n) =
      if neg then
        if (n : Int) ≤ 2 ^ (intSize - 1) then .ok (-(n : Int)) else .error .atoiRange
      else
        if (n : Int) < 2 ^ (intSize - 1) then .ok (n : Int) else .error .atoiRange := by
  obtain ⟨c, rest, hc, _, _⟩ := fmtNat_head n
  have hp := parseDigits_fmtNat n
  rw [hc] at hp
  simp only [atoiSigned, hc, hp]

/-- `Atoi` on the output of `Itoa`: the value itself when it fits `int`, a range
error otherwise. -/
theorem atoi_itoa_eq (i : Int) :
    atoi (itoa i) = if minInt ≤ i ∧ i ≤ maxInt then .ok i else .error .atoiRange := by
  simp only [minInt, maxInt, intSize]
  obtain ⟨c, rest, hc, h1, h2⟩ := fmtNat_head i.natAbs
  by_cases hi : i < 0
  · have hab : (i.natAbs : Int) = -i := by omega
    have : atoi (itoa i) = atoiSigned true (fmtNat i.natAbs) := by
      simp [itoa, hi, atoi]
    rw [this, atoiSigned_fmtNat, hab, if_pos rfl]
    simp only [intSize]
    by_cases hr : -i ≤ 2 ^ (64 - 1)
    · rw [if_pos hr, if_pos (by norm_num at hr ⊢; omega)]
      simp
    · rw [if_neg hr, if_neg (by norm_num at hr ⊢; omega)]
  · have hab : (i.natAbs : Int) = i := by omega
    have : atoi (itoa i) = atoiSigned false (fmtNat i.natAbs) := by
      simp only [itoa, hi, if_false, hc]
      unfold atoi
      split
      · simp_all
      · simp_all
      · simp_all
      · rfl
    rw [this, atoiSigned_fmtNat, hab, if_neg (by simp)]
    simp only [intSize]
    by_cases hr : i < 2 ^ (64 - 1)
    · rw [if_pos hr, if_pos (by norm_num at hr ⊢; omega)]
    · rw [if_neg hr, if_neg (by norm_num at hr ⊢; omega)]

/-- `Atoi` reads back what `Itoa` wrote, for every value of type `int`. -/
theorem atoi_itoa (i : Int) (hlo : minInt ≤ i) (hhi : i ≤ maxInt) : atoi (itoa i) = .ok i := by
  rw [atoi_itoa_eq, if_pos ⟨hlo, hhi⟩]

theorem wrapInt_range (x : Int) : minInt ≤ wrapInt x ∧ wrapInt x ≤ maxInt := by
  simp only [minInt, maxInt, wrapInt, intSize]
  norm_num
  omega

theorem wrapInt_of_range (x : Int) (hlo : minInt ≤ x) (hhi : x ≤ maxInt) : wrapInt x = x := by
  simp only [minInt, maxInt, wrapInt, intSize] at *
  norm_num at *
  omega

/-! ## The key order and the store -/

theorem bytesLt_irrefl (a : Bytes) : bytesLt a a = false := by
  induction a with
  | nil => rfl
  | cons x xs ih => simp [bytesLt, ih]

theorem bytesLt_trans (a b c : Bytes) (hab : bytesLt a b = true) (hbc : bytesLt b c = true) :
    bytesLt a c = true := by
  induction a generalizing b c with
  | nil =>
    cases b with
    | nil => simp [bytesLt] at hab
    | cons y ys =>
      cases c with
      | nil => simp [bytesLt] at hbc
      | cons z zs => rfl
  | cons x xs ih =>
    cases b with
    | nil => simp [bytesLt] at hab
    | cons y ys =>
      cases c with
      | nil => simp [bytesLt] at hbc
      | cons z zs =>
        simp only [bytesLt, Bool.or_eq_true, Bool.and_eq_true, decide_eq_true_eq] at hab hbc ⊢
        rcases hab with h1 | ⟨h1, h1'⟩ <;> rcases hbc with h2 | ⟨h2, h2'⟩
        · left; omega
        · left; omega
        · left; omega
        · right; exact ⟨by omega, ih ys zs h1' h2'⟩

theorem bytesLt_total (a b : Bytes) (hne : a ≠ b) (hab : bytesLt a b = false) :
    bytesLt b a = true := by
  induction a generalizing b with
  | nil =>
    cases b with
    | nil => exact absurd rfl hne
    | cons y ys => simp [bytesLt] at hab
  | cons x xs ih =>
    cases b with
    | nil => rfl
    | cons y ys =>
      simp only [bytesLt, Bool.or_eq_false_iff, Bool.and_eq_false_imp, decide_eq_false_iff_not,
        decide_eq_true_eq] at hab
      simp only [bytesLt, Bool.or_eq_true, Bool.and_eq_true, decide_eq_true_eq]
      by_cases hxy : x = y
      · subst hxy
        right
        refine ⟨rfl, ih ys ?_ (hab.2 rfl)⟩
        intro h
        exact hne (by rw [h])
      · left; omega

theorem Store.get_set_same (s : Store) (k v : Bytes) : (s.set k v).get k = some v := by
  induction s with
  | nil => simp [Store.set, Store.get]
  | cons e rest ih =>
    obtain ⟨k', v'⟩ := e
    simp only [Store.set]
    split
    · simp [Store.get]
    · split
      · simp [Store.get]
      · rename_i h _
        simp [Store.get, h, ih]

theorem Store.get_set_other (s : Store) (k v k' : Bytes) (h : k' ≠ k) :
    (s.set k v).get k' = s.get k' := by
  induction s with
  | nil => simp [Store.set, Store.get, h]
  | cons e rest ih =>
    obtain ⟨k₀, v₀⟩ := e
    simp only [Store.set]
    split
    · rename_i hk
      subst hk
      simp [Store.get, h]
    · split
      · simp [Store.get, h]
      · simp only [Store.get, ih]

theorem Store.get_eq_none_iff (s : Store) (k : Bytes) :
    s.get k = none ↔ ∀ e ∈ s, e.1 ≠ k := by
  induction s with
  | nil => simp [Store.get]
  | cons e rest ih =>
    obtain ⟨k', v'⟩ := e
    simp only [Store.get, List.mem_cons, forall_eq_or_imp]
    split
    · rename_i hk
      simp [hk]
    · rename_i hk
      rw [ih]
      constructor
      · intro h
        exact ⟨fun h' => hk h'.symm, h⟩
      · intro h
        exact h.2

theorem Store.mem_of_get (s : Store) (k v : Bytes) (h : s.get k = some v) : (k, v) ∈ s := by
  induction s with
  | nil => simp [Store.get] at h
  | cons e rest ih =>
    obtain ⟨k', v'⟩ := e
    simp only [Store.get] at h
    split at h
    · rename_i hk
      simp only [Option.some.injEq] at h
      simp [hk, h]
    · exact List.mem_cons_of_mem _ (ih h)

theorem Store.mem_set (s : Store) (k v : Bytes) (e : Bytes × Bytes) (h : e ∈ s.set k v) :
    e = (k, v) ∨ e ∈ s := by
  induction s with
  | nil =>
    simp only [Store.set, List.mem_singleton] at h
    exact Or.inl h
  | cons e₀ rest ih =>
    obtain ⟨k₀, v₀⟩ := e₀
    simp only [Store.set] at h
    split at h
    · rcases List.mem_cons.mp h with h | h
      · exact Or.inl h
      · exact Or.inr (List.mem_cons_of_mem _ h)
    · split at h
      · rcases List.mem_cons.mp h with h | h
        · exact Or.inl h
        · exact Or.inr h
      · rcases List.mem_cons.mp h with h | h
        · exact Or.inr (by rw [h]; exact List.mem_cons_self _ _)
        · rcases ih h with h | h
          · exact Or.inl h
          · exact Or.inr (List.mem_cons_of_mem _ h)

theorem Store.set_wf (s : Store) (k v : Bytes) (h : s.WF) : (s.set k v).WF := by
  induction s with
  | nil => simp [Store.set, Store.WF]
  | cons e₀ rest ih =>
    obtain ⟨k₀, v₀⟩ := e₀
    unfold Store.WF at h ih ⊢
    rw [List.pairwise_cons] at h
    simp only [Store.set]
    split
    · rename_i hk
      subst hk
      rw [List.pairwise_cons]
      exact h
    · split
      · rename_i hlt
        rw [List.pairwise_cons]
        refine ⟨?_, List.pairwise_cons.mpr h⟩
        intro e he
        rcases List.mem_cons.mp he with he | he
        · rw [he]; exact hlt
        · exact bytesLt_trans _ _ _ hlt (h.1 e he)
      · rename_i hne hlt
        rw [List.pairwise_cons]
        refine ⟨?_, ih h.2⟩
        intro e he
        rcases Store.mem_set _ _ _ _ he with he | he
        · rw [he]
          exact bytesLt_total _ _ hne (by simpa using hlt)
        · exact h.1 e he

theorem Store.set_perm (s : Store) (k v : Bytes) (h : s.get k = none) :
    (s.set k v).Perm ((k, v) :: s) := by
  induction s with
  | nil => simp [Store.set]
  | cons e₀ rest ih =>
    obtain ⟨k₀, v₀⟩ := e₀
    simp only [Store.get] at h
    split at h
    · simp at h
    · rename_i hne
      simp only [Store.set, if_neg hne]
      split
      · exact List.Perm.refl _
      · exact ((ih h).cons (k₀, v₀)).trans (List.Perm.swap _ _ _)

theorem Store.filter_set_of_false (s : Store) (k v : Bytes) (P : Bytes → Bool) (h : P k = false) :
    (s.set k v).filter (fun e => P e.1) = s.filter (fun e => P e.1) := by
  induction s with
  | nil => simp [Store.set, h]
  | cons e₀ rest ih =>
    obtain ⟨k₀, v₀⟩ := e₀
    simp only [Store.set]
    split
    · rename_i hk
      subst hk
      simp [List.filter_cons, h]
    · split
      · simp [List.filter_cons, h]
      · simp only [List.filter_cons, ih]

/-! ## Keys -/

theorem productPfx_eq : productPfx = [112, 114, 111, 100, 117, 99, 116, 58] := by decide

theorem nextIDKey_eq : nextIDKey = [110, 101, 120, 116, 95, 105, 100] := by decide

theorem hasPfx_append (p rest : Bytes) : hasPfx (p ++ rest) p = true := by
  induction p with
  | nil => cases rest <;> rfl
  | cons x xs ih => simp [hasPfx, ih]

theorem hasPfx_productKey (id : Int) : hasPfx (productKey id) productPfx = true :=
  hasPfx_append _ _

theorem hasPfx_nextIDKey : hasPfx nextIDKey productPfx = false := by decide

theorem productKey_ne_nextIDKey (id : Int) : productKey id ≠ nextIDKey := by
  intro h
  have h1 := hasPfx_productKey id
  rw [h, hasPfx_nextIDKey] at h1
  exact Bool.noConfusion h1

theorem productKey_injective (a b : Int) (h : productKey a = productKey b) : a = b :=
  itoa_injective a b (List.append_cancel_left h)

/-! ## The transactions of `createProduct` -/

/-- The counter read, branch by branch. -/
theorem readNextID_eq (φ : CreateFaults) (db : Store) :
    readNextID φ db =
      match φ.get with
      | some msg => .error (.engine msg)
      | none =>
        match db.get nextIDKey with
        | none => .ok 1
        | some v =>
          match φ.value with
          | some msg => .error (.engine msg)
          | none => atoi v := by
  unfold readNextID dbView Txn.get Txn.start Txn.contents
  cases φ.get with
  | some msg => rfl
  | none =>
    simp only [List.foldl_nil]
    cases db.get nextIDKey with
    | none => rfl
    | some v =>
      simp only [Item.value]

/-- The write transaction, branch by branch. -/
theorem saveProduct_eq (marshal : Product → Except Err Bytes) (φ : CreateFaults) (db : Store)
    (p : Product) (nextID : Int) :
    saveProduct marshal φ db p nextID =
      match marshal p with
      | .error e => (.error e, db)
      | .ok data =>
        match φ.setProduct with
        | some msg => (.error (.engine msg), db)
        | none =>
          match φ.setNextID with
          | some msg => (.error (.engine msg), db)
          | none =>
            match φ.commit with
            | some msg => (.error (.engine msg), db)
            | none =>
              (.ok (), (db.set (productKey p.ID) data).set nextIDKey
                (itoa (wrapInt (nextID + 1)))) := by
  unfold saveProduct dbUpdate Txn.set Txn.start
  cases marshal p with
  | error e => rfl
  | ok data =>
    cases φ.setProduct with
    | some msg => rfl
    | none =>
      cases φ.setNextID with
      | some msg => rfl
      | none =>
        cases φ.commit with
        | some msg => rfl
        | none => rfl

/-- The write transaction either commits or leaves the engine as it was. -/
theorem saveProduct_error (marshal : Product → Except Err Bytes) (φ : CreateFaults) (db : Store)
    (p : Product) (nextID : Int) (e : Err) (db' : Store)
    (h : saveProduct marshal φ db p nextID = (.error e, db')) : db' = db := by
  rw [saveProduct_eq] at h
  cases hm : marshal p with
  | error e' => rw [hm] at h; exact (Prod.mk.inj h).2.symm
  | ok data =>
    rw [hm] at h
    cases h1 : φ.setProduct with
    | some msg => simp only [h1] at h; exact (Prod.mk.inj h).2.symm
    | none =>
      cases h2 : φ.setNextID with
      | some msg => simp only [h1, h2] at h; exact (Prod.mk.inj h).2.symm
      | none =>
        cases h3 : φ.commit with
        | some msg => simp only [h1, h2, h3] at h; exact (Prod.mk.inj h).2.symm
        | none => simp only [h1, h2, h3] at h; exact absurd (Prod.mk.inj h).1 (by simp)

/-! ## The loop of `getProducts` -/

/-- The loop succeeds exactly when every visited item is read and decoded, and
then appends the decoded products in the order visited. -/
theorem decodeItems_ok_iff (unmarshal : Bytes → Except Err Product)
    (valueFault : Bytes → Option String) (items : List Item) (acc ps : List Product) :
    decodeItems unmarshal valueFault items acc = .ok ps ↔
      ∃ qs, ps = acc ++ qs ∧
        List.Forall₂ (fun it q => valueFault it.key = none ∧ unmarshal it.val = .ok q) items qs := by
  induction items generalizing acc with
  | nil =>
    simp only [decodeItems, Except.ok.injEq, List.forall₂_nil_left_iff]
    constructor
    · intro h; exact ⟨[], by simp [h], rfl⟩
    · rintro ⟨qs, h, rfl⟩; simp [h]
  | cons it rest ih =>
    simp only [decodeItems, Item.value]
    cases hf : valueFault it.key with
    | some msg => simp [List.forall₂_cons_left_iff, hf]
    | none =>
      cases hu : unmarshal it.val with
      | error e => simp [List.forall₂_cons_left_iff, hu]
      | ok p =>
        simp only [ih, List.forall₂_cons_left_iff, hf, hu, true_and, Except.ok.injEq]
        constructor
        · rintro ⟨qs, h, hall⟩
          exact ⟨p :: qs, by simp [h], p, qs, rfl, hall, rfl⟩
        · rintro ⟨qs, h, q, qs', hq, hall, rfl⟩
          subst hq
          exact ⟨qs', by simp [h], hall⟩

/-- The loop fails exactly when some visited item cannot be read or decoded. -/
theorem decodeItems_error_iff (unmarshal : Bytes → Except Err Product)
    (valueFault : Bytes → Option String) (items : List Item) (acc : List Product) :
    (∃ e, decodeItems unmarshal valueFault items acc = .error e) ↔
      ∃ it ∈ items, valueFault it.key ≠ none ∨ ∃ e, unmarshal it.val = .error e := by
  induction items generalizing acc with
  | nil => simp [decodeItems]
  | cons it rest ih =>
    simp only [decodeItems, Item.value, List.mem_cons, exists_eq_or_imp]
    cases hf : valueFault it.key with
    | some msg => simp
    | none =>
      cases hu : unmarshal it.val with
      | error e => simp
      | ok p => simp [ih]

theorem getProducts_eq (unmarshal : Bytes → Except Err Product)
    (valueFault : Bytes → Option String) (db : Store) :
    getProducts unmarshal valueFault db =
      match decodeItems unmarshal valueFault
        ((db.filter (fun kv => hasPfx kv.1 productPfx)).map (fun kv => ⟨kv.1, kv.2⟩)) [] with
      | .error e => .internalServerError e
      | .ok products => .ok products := rfl

/-! ## One request, and requests in sequence -/

/-- A request on a store whose counter says `c`, with no engine failure and an
encodable record: answers 201 with ID `c`, writes the record and advances the
counter. -/
theorem createProduct_step (marshal : Product → Except Err Bytes) (db : Store) (d : Product)
    (c : Int) (data : Bytes) (hc : CounterAt db c) (h1 : 1 ≤ c) (h2 : c ≤ maxInt)
    (hm : marshal { d with ID := c } = .ok data) :
    createProduct marshal CreateFaults.none db (.ok d) =
      (.created { d with ID := c },
        (db.set (productKey c) data).set nextIDKey (itoa (wrapInt (c + 1)))) := by
  have hmin : minInt ≤ c := by
    simp only [minInt, intSize]; norm_num; omega
  have hr : readNextID CreateFaults.none db = .ok c := by
    rw [readNextID_eq]
    simp only [CreateFaults.none]
    rcases hc with ⟨hc1, hc2⟩ | hc
    · rw [hc2, hc1]
    · rw [hc, wrapInt_of_range c hmin h2]
      exact atoi_itoa c hmin h2
  unfold createProduct
  simp only [hr]
  rw [saveProduct_eq]
  simp only [hm, CreateFaults.none]

theorem counterAt_after (db : Store) (key data : Bytes) (c : Int) :
    CounterAt ((db.set key data).set nextIDKey (itoa (wrapInt c))) c :=
  Or.inr (Store.get_set_same _ _ _)

theorem withIDs_length (c : Int) (ds : List Product) : (withIDs c ds).length = ds.length := by
  induction ds generalizing c with
  | nil => rfl
  | cons d ds ih => simp [withIDs, ih]

theorem withIDs_getElem? (c : Int) (ds : List Product) (i : Nat) :
    (withIDs c ds)[i]? = ds[i]?.map (fun d => { d with ID := c + i }) := by
  induction ds generalizing c i with
  | nil => simp [withIDs]
  | cons d ds ih =>
    cases i with
    | zero => simp [withIDs]
    | succ j =>
      simp only [withIDs, List.getElem?_cons_succ, ih]
      congr 1
      funext d
      congr 1
      push_cast
      ring

theorem withIDs_ids (c : Int) (ds : List Product) :
    (withIDs c ds).map (fun p => p.ID) =
      (List.range ds.length).map (fun (i : Nat) => c + (i : Int)) := by
  apply List.ext_getElem?
  intro i
  simp only [List.getElem?_map, withIDs_getElem?, List.getElem?_range']
  by_cases h : i < ds.length
  · simp [List.getElem?_range, h, List.getElem?_eq_getElem h]
  · have h' : ds.length ≤ i := Nat.le_of_not_lt h
    simp [List.getElem?_eq_none h', List.getElem?_eq_none (show (List.range ds.length).length ≤ i by simpa using h')]

theorem mem_withIDs (c : Int) (ds : List Product) (p : Product) (h : p ∈ withIDs c ds) :
    c ≤ p.ID ∧ p.ID < c + ds.length := by
  induction ds generalizing c with
  | nil => simp [withIDs] at h
  | cons d ds ih =>
    simp only [withIDs, List.mem_cons] at h
    rcases h with h | h
    · subst h
      simp only [List.length_cons]
      push_cast
      omega
    · have := ih (c + 1) h
      simp only [List.length_cons]
      push_cast
      omega

/-- Responses of a sequential run from a store whose counter says `c`, as long
as every assigned ID fits `int`: request `i` is answered 201 with ID `c + i`. -/
theorem createAll_responses (marshal : Product → Except Err Bytes) (ds : List Product)
    (db : Store) (c : Int) (hc : CounterAt db c) (h1 : 1 ≤ c)
    (h2 : c + ds.length ≤ maxInt + 1)
    (hm : ∀ r ∈ withIDs c ds, ∃ data, marshal r = .ok data) :
    (createAll marshal db ds).1 = (withIDs c ds).map Response.created := by
  induction ds generalizing db c with
  | nil => rfl
  | cons d ds ih =>
    simp only [List.length_cons] at h2
    push_cast at h2
    obtain ⟨data, hdata⟩ := hm { d with ID := c } (by simp [withIDs])
    have hstep := createProduct_step marshal db d c data hc h1 (by omega) hdata
    simp only [createAll, hstep, withIDs, List.map_cons, List.cons.injEq, true_and]
    exact ih _ (c + 1) (counterAt_after _ _ _ _) (by omega) (by omega)
      (fun r hr => hm r (by simp [withIDs, hr]))

/-! ## The store after a sequential run -/

theorem decoded_of_ok (unmarshal : Bytes → Except Err Product) (k v : Bytes) (p : Product)
    (h : unmarshal v = .ok p) : decoded unmarshal (k, v) = p := by
  simp [decoded, h]

/-- When every visited entry decodes, the loop returns the decoded entries. -/
theorem decodeItems_decoded (unmarshal : Bytes → Except Err Product) (es : List (Bytes × Bytes))
    (acc : List Product) (h : ∀ kv ∈ es, unmarshal kv.2 = .ok (decoded unmarshal kv)) :
    decodeItems unmarshal (fun _ => none) (es.map (fun kv => ⟨kv.1, kv.2⟩)) acc =
      .ok (acc ++ es.map (decoded unmarshal)) := by
  induction es generalizing acc with
  | nil => simp [decodeItems]
  | cons e es ih =>
    simp only [List.map_cons, decodeItems, Item.value, h e (List.mem_cons_self _ _)]
    rw [ih _ (fun kv hkv => h kv (List.mem_cons_of_mem _ hkv))]
    simp

/-- The invariant of a sequential run. After the run the store is still in key
order, every entry under `product:` decodes to a record whose ID gives its key,
and these records are, up to order, the records present before (`L`) followed by
the drafts with consecutive IDs from `c`. -/
theorem createAll_store (marshal : Product → Except Err Bytes)
    (unmarshal : Bytes → Except Err Product) (ds : List Product) (db : Store) (c : Int)
    (L : List Product) (hc : CounterAt db c) (h1 : 1 ≤ c) (h2 : c + ds.length ≤ maxInt + 1)
    (hrt : ∀ r ∈ withIDs c ds, ∃ data, marshal r = .ok data ∧ unmarshal data = .ok r)
    (hwf : db.WF)
    (hdec : ∀ kv ∈ db, hasPfx kv.1 productPfx = true →
      unmarshal kv.2 = .ok (decoded unmarshal kv) ∧ kv.1 = productKey (decoded unmarshal kv).ID)
    (hperm : ((db.filter (fun kv => hasPfx kv.1 productPfx)).map (decoded unmarshal)).Perm L)
    (hL : ∀ p ∈ L, p.ID < c) :
    (createAll marshal db ds).2.WF ∧
    (∀ kv ∈ (createAll marshal db ds).2, hasPfx kv.1 productPfx = true →
      unmarshal kv.2 = .ok (decoded unmarshal kv) ∧
        kv.1 = productKey (decoded unmarshal kv).ID) ∧
    (((createAll marshal db ds).2.filter (fun kv => hasPfx kv.1 productPfx)).map
      (decoded unmarshal)).Perm (L ++ withIDs c ds) := by
  induction ds generalizing db c L with
  | nil => exact ⟨hwf, hdec, by simpa [createAll, withIDs] using hperm⟩
  | cons d ds ih =>
    simp only [List.length_cons] at h2
    push_cast at h2
    obtain ⟨data, hdata, hback⟩ := hrt { d with ID := c } (by simp [withIDs])
    have hstep := createProduct_step marshal db d c data hc h1 (by omega) hdata
    have hfresh : db.get (productKey c) = none := by
      rw [Store.get_eq_none_iff]
      intro kv hkv hk
      have hp : hasPfx kv.1 productPfx = true := by rw [hk]; exact hasPfx_productKey c
      have hid := productKey_injective _ _ (hk.symm.trans (hdec kv hkv hp).2)
      have hmem : decoded unmarshal kv ∈ L :=
        hperm.subset (List.mem_map.mpr ⟨kv, List.mem_filter.mpr ⟨hkv, hp⟩, rfl⟩)
      have := hL _ hmem
      omega
    have hdec' : ∀ kv ∈ (db.set (productKey c) data).set nextIDKey (itoa (wrapInt (c + 1))),
        hasPfx kv.1 productPfx = true →
        unmarshal kv.2 = .ok (decoded unmarshal kv) ∧
          kv.1 = productKey (decoded unmarshal kv).ID := by
      intro kv hkv hp
      rcases Store.mem_set _ _ _ _ hkv with h | h
      · rw [h] at hp
        rw [hasPfx_nextIDKey] at hp
        cases hp
      · rcases Store.mem_set _ _ _ _ h with h | h
        · subst h
          rw [decoded_of_ok unmarshal _ _ _ hback]
          exact ⟨hback, rfl⟩
        · exact hdec kv h hp
    have hperm' : ((((db.set (productKey c) data).set nextIDKey (itoa (wrapInt (c + 1)))).filter
        (fun kv => hasPfx kv.1 productPfx)).map (decoded unmarshal)).Perm
        (L ++ [{ d with ID := c }]) := by
      rw [Store.filter_set_of_false _ nextIDKey _ (fun k => hasPfx k productPfx) hasPfx_nextIDKey]
      have hp1 := ((Store.set_perm db (productKey c) data hfresh).filter
        (fun kv => hasPfx kv.1 productPfx)).map (decoded unmarshal)
      rw [List.filter_cons_of_pos (by simpa using hasPfx_productKey c), List.map_cons,
        decoded_of_ok unmarshal _ _ _ hback] at hp1
      exact hp1.trans ((hperm.cons _).trans (List.perm_append_singleton _ _).symm)
    have hL' : ∀ p ∈ L ++ [{ d with ID := c }], p.ID < c + 1 := by
      intro p hp
      rcases List.mem_append.mp hp with hp | hp
      · have := hL p hp; omega
      · rw [List.mem_singleton.mp hp]; simp
    have := ih _ (c + 1) (L ++ [{ d with ID := c }]) (counterAt_after _ _ _ _) (by omega)
      (by omega) (fun r hr => hrt r (by simp [withIDs, hr]))
      (Store.set_wf _ _ _ (Store.set_wf _ _ _ hwf)) hdec' hperm' hL'
    simp only [createAll, hstep, withIDs]
    simpa [List.append_assoc] using this

/-- The listing after a sequential run from the empty store: `getProducts`
answers 200 with the stored records, which are the drafts with IDs `1..N` up to
order, listed in ascending key order. -/
theorem getProducts_after_createAll (marshal : Product → Except Err Bytes)
    (unmarshal : Bytes → Except Err Product) (ds : List Product)
    (hN : (ds.length : Int) < 2 ^ 63)
    (hrt : ∀ r ∈ withIDs 1 ds, ∃ data, marshal r = .ok data ∧ unmarshal data = .ok r) :
    ∃ ps, getProducts unmarshal (fun _ => none) (createAll marshal Store.empty ds).2 = .ok ps ∧
      ps.Perm (withIDs 1 ds) ∧
      ps.Pairwise (fun p q => bytesLt (productKey p.ID) (productKey q.ID) = true) := by
  obtain ⟨hwf, hdec, hperm⟩ := createAll_store marshal unmarshal ds Store.empty 1 []
    (Or.inl ⟨rfl, rfl⟩) (le_refl 1) (by simp only [maxInt, intSize]; norm_num; omega) hrt
    List.Pairwise.nil (by intro kv hkv; cases hkv) (by simp [Store.empty])
    (by intro p hp; cases hp)
  refine ⟨_, ?_, by simpa using hperm, ?_⟩
  · rw [getProducts_eq, decodeItems_decoded unmarshal _ []
      (fun kv hkv => (hdec kv (List.mem_filter.mp hkv).1 (List.mem_filter.mp hkv).2).1)]
    rfl
  · rw [List.pairwise_map]
    have hsub : (List.filter (fun kv => hasPfx kv.1 productPfx)
        (createAll marshal Store.empty ds).2).Pairwise (fun a b => bytesLt a.1 b.1 = true) :=
      List.Pairwise.sublist (List.filter_sublist _) hwf
    refine hsub.imp_of_mem ?_
    intro a b ha hb hab
    rw [← (hdec a (List.mem_filter.mp ha).1 (List.mem_filter.mp ha).2).2,
      ← (hdec b (List.mem_filter.mp hb).1 (List.mem_filter.mp hb).2).2]
    exact hab

theorem withIDs_filter (c : Int) (ds : List Product) (k : Nat) (h : k < ds.length) :
    (withIDs c ds).filter (fun p => decide (p.ID = c + k)) = [{ ds[k] with ID := c + k }] := by
  induction ds generalizing c k with
  | nil => simp at h
  | cons d ds ih =>
    have hnone : ∀ (c' : Int) (m : Int), m < c' →
        (withIDs c' ds).filter (fun p => decide (p.ID = m)) = [] := by
      intro c' m hm
      rw [List.filter_eq_nil_iff]
      intro p hp
      have := (mem_withIDs c' ds p hp).1
      simp only [decide_eq_true_eq]
      omega
    cases k with
    | zero =>
      simp only [withIDs, Nat.cast_zero, add_zero, List.getElem_cons_zero]
      rw [List.filter_cons_of_pos (by simp)]
      rw [hnone (c + 1) c (by omega)]
    | succ j =>
      simp only [withIDs, List.getElem_cons_succ]
      rw [List.filter_cons_of_neg (by simp only [decide_eq_true_eq]; push_cast; omega)]
      have := ih (c + 1) j (by simpa using h)
      have e : c + ((j + 1 : Nat) : Int) = c + 1 + (j : Int) := by push_cast; ring
      rw [e]
      exact this

theorem bytesLt_append_left (p x y : Bytes) : bytesLt (p ++ x) (p ++ y) = bytesLt x y := by
  induction p with
  | nil => rfl
  | cons a as ih => simp [bytesLt, ih]

theorem itoa_digit (a : Int) (h0 : 0 ≤ a) (h9 : a ≤ 9) : itoa a = [48 + a.natAbs] := by
  rw [itoa, if_neg (by omega), fmtNat_lt _ (by omega)]

/-- Among the IDs 1 to 9 the key order is the numeric order. -/
theorem productKey_lt_digit (a b : Int) (ha : 0 ≤ a ∧ a ≤ 9) (hb : 0 ≤ b ∧ b ≤ 9)
    (h : bytesLt (productKey a) (productKey b) = true) : a < b := by
  rw [productKey, productKey, bytesLt_append_left, itoa_digit a ha.1 ha.2,
    itoa_digit b hb.1 hb.2] at h
  simp only [bytesLt, Bool.and_false, Bool.or_false, decide_eq_true_eq] at h
  omega

theorem withIDs_pairwise (c : Int) (ds : List Product) :
    (withIDs c ds).Pairwise (fun p q => p.ID < q.ID) := by
  induction ds generalizing c with
  | nil => exact List.Pairwise.nil
  | cons d ds ih =>
    simp only [withIDs, List.pairwise_cons]
    refine ⟨?_, ih (c + 1)⟩
    intro p hp
    have := (mem_withIDs (c + 1) ds p hp).1
    omega

/-- Running the two transactions of a request back to back is `createProduct`
with no engine failure. -/
theorem step_step_eq_createProduct (marshal : Product → Except Err Bytes) (db : Store)
    (d : Product) :
    (((Call.bound d).step marshal db).2.step marshal ((Call.bound d).step marshal db).1) =
      ((createProduct marshal CreateFaults.none db (.ok d)).2,
        .finished (createProduct marshal CreateFaults.none db (.ok d)).1) := by
  simp only [Call.step, createProduct]
  cases hr : readNextID CreateFaults.none db with
  | error e => rfl
  | ok nextID =>
    simp only [Call.step]
    rcases hs : saveProduct marshal CreateFaults.none db { d with ID := nextID } nextID
      with ⟨res, db'⟩
    cases res with
    | error e => rfl
    | ok u => cases u; rfl

/-! ## Claims -/

/-- C5. Create is all-or-nothing: whenever `createProduct` answers anything but
201 (the binding failed, the counter read failed, the counter did not parse,
`json.Marshal` failed, a `txn.Set` failed or the commit failed), the contents of
the engine afterwards are exactly the contents before. -/
theorem createProduct_all_or_nothing (marshal : Product → Except Err Bytes) (φ : CreateFaults)
    (db : Store) (body : Except Err Product)
    (h : (createProduct marshal φ db body).1.product = none) :
    (createProduct marshal φ db body).2 = db := by
  unfold createProduct at h ⊢
  cases body with
  | error e => rfl
  | ok product =>
    simp only at h ⊢
    cases hr : readNextID φ db with
    | error e => rfl
    | ok nextID =>
      simp only [hr] at h ⊢
      rcases hs : saveProduct marshal φ db { product with ID := nextID } nextID with ⟨res, db'⟩
      cases res with
      | error e => exact saveProduct_error _ _ _ _ _ _ _ hs
      | ok u =>
        cases u
        simp only [hs, Response.product] at h
        cases h

/-- C5 at a concrete input: the record write succeeds, the counter write fails;
the handler answers 500 and the store (here holding one record already) is
unchanged, with no `product:2` entry. -/
theorem createProduct_all_or_nothing_witness :
    (createProduct exampleMarshal ⟨none, none, none, some "disk full", none⟩
        (createAll exampleMarshal Store.empty [widget]).2 (.ok gadget)).1
      = .internalServerError (.engine "disk full") ∧
    (createProduct exampleMarshal ⟨none, none, none, some "disk full", none⟩
        (createAll exampleMarshal Store.empty [widget]).2 (.ok gadget)).2
      = (createAll exampleMarshal Store.empty [widget]).2 ∧
    (createAll exampleMarshal Store.empty [widget]).2.get (productKey 2) = none :=
  ⟨by decide,
   createProduct_all_or_nothing exampleMarshal ⟨none, none, none, some "disk full", none⟩
     (createAll exampleMarshal Store.empty [widget]).2 (.ok gadget) (by decide),
   by decide⟩

/-- C7. Empty listing: on every store with no key starting with `product:`,
`getProducts` answers 200 with the empty sequence, whatever the decoder. -/
theorem getProducts_empty (unmarshal : Bytes → Except Err Product)
    (valueFault : Bytes → Option String) (db : Store)
    (h : ∀ kv ∈ db, hasPfx kv.1 productPfx = false) :
    getProducts unmarshal valueFault db = .ok [] := by
  have : db.filter (fun kv => hasPfx kv.1 productPfx) = [] := by
    rw [List.filter_eq_nil_iff]
    intro kv hkv
    simp [h kv hkv]
  rw [getProducts_eq, this]
  rfl

/-- C7 at concrete inputs: the empty store and a store holding only `next_id`. -/
theorem getProducts_empty_witness :
    getProducts exampleUnmarshal (fun _ => none) Store.empty = .ok [] ∧
    getProducts exampleUnmarshal (fun _ => none) [(nextIDKey, str "5")] = .ok [] :=
  ⟨by decide, getProducts_empty exampleUnmarshal (fun _ => none) [(nextIDKey, str "5")] (by decide)⟩

/-- C8. Listing is all-or-nothing: `getProducts` answers 500 exactly when some
entry under the prefix `product:` cannot be read (engine failure) or decoded;
otherwise it answers 200; and a 200 answer carries, in key order, the decoded
value of every entry under the prefix, one product per entry. -/
theorem getProducts_all_or_nothing (unmarshal : Bytes → Except Err Product)
    (valueFault : Bytes → Option String) (db : Store) :
    ((∃ e, getProducts unmarshal valueFault db = .internalServerError e) ↔
      ∃ kv ∈ db, hasPfx kv.1 productPfx = true ∧
        (valueFault kv.1 ≠ none ∨ ∃ e, unmarshal kv.2 = .error e)) ∧
    ((∃ e, getProducts unmarshal valueFault db = .internalServerError e) ∨
      ∃ ps, getProducts unmarshal valueFault db = .ok ps) ∧
    (∀ ps, getProducts unmarshal valueFault db = .ok ps →
      List.Forall₂ (fun kv p => unmarshal kv.2 = .ok p)
        (db.filter (fun kv => hasPfx kv.1 productPfx)) ps) := by
  have hmem : (∃ it ∈ (db.filter (fun kv => hasPfx kv.1 productPfx)).map
        (fun kv => (⟨kv.1, kv.2⟩ : Item)),
        valueFault it.key ≠ none ∨ ∃ e, unmarshal it.val = .error e) ↔
      ∃ kv ∈ db, hasPfx kv.1 productPfx = true ∧
        (valueFault kv.1 ≠ none ∨ ∃ e, unmarshal kv.2 = .error e) := by
    constructor
    · rintro ⟨it, hit, hbad⟩
      obtain ⟨kv, hkv, rfl⟩ := List.mem_map.mp hit
      obtain ⟨hkv, hp⟩ := List.mem_filter.mp hkv
      exact ⟨kv, hkv, hp, hbad⟩
    · rintro ⟨kv, hkv, hp, hbad⟩
      exact ⟨⟨kv.1, kv.2⟩, List.mem_map.mpr ⟨kv, List.mem_filter.mpr ⟨hkv, hp⟩, rfl⟩, hbad⟩
  rw [getProducts_eq, ← hmem, ← decodeItems_error_iff unmarshal valueFault _ []]
  cases hd : decodeItems unmarshal valueFault
    ((db.filter (fun kv => hasPfx kv.1 productPfx)).map (fun kv => ⟨kv.1, kv.2⟩)) [] with
  | error e => simp
  | ok qs =>
    refine ⟨by simp, by simp, ?_⟩
    intro ps h
    cases h
    obtain ⟨rs, hrs, hall⟩ := (decodeItems_ok_iff _ _ _ _ _).mp hd
    simp only [List.nil_append] at hrs
    subst hrs
    rw [List.forall₂_map_left_iff] at hall
    exact hall.imp (fun _ _ h => h.2)

/-- C1. Sequential ID allocation: starting from the empty store, for every
sequence of `N` drafts with `N < 2^63` (so that every ID fits Go's `int`), with
no engine failure and every record encodable, the `N` responses of
`createProduct` are 201 responses carrying the drafts with IDs `1, 2, ..., N`
in that order; the returned IDs are strictly increasing (hence pairwise
distinct) and all at least 1. -/
theorem createAll_sequential_ids (marshal : Product → Except Err Bytes) (ds : List Product)
    (hN : (ds.length : Int) < 2 ^ 63)
    (hm : ∀ r ∈ withIDs 1 ds, ∃ data, marshal r = .ok data) :
    (createAll marshal Store.empty ds).1 = (withIDs 1 ds).map Response.created ∧
    (∀ i (h : i < ds.length), (createAll marshal Store.empty ds).1[i]? =
      some (.created { ds[i] with ID := (i : Int) + 1 })) ∧
    (createAll marshal Store.empty ds).1.filterMap Response.id =
      (List.range ds.length).map (fun (i : Nat) => (i : Int) + 1) ∧
    ((createAll marshal Store.empty ds).1.filterMap Response.id).Pairwise (fun a b => a < b) ∧
    ∀ id ∈ (createAll marshal Store.empty ds).1.filterMap Response.id, 1 ≤ id := by
  have hresp := createAll_responses marshal ds Store.empty 1 (Or.inl ⟨rfl, rfl⟩) (le_refl 1)
    (by simp only [maxInt, intSize]; norm_num; omega) hm
  have hids : (createAll marshal Store.empty ds).1.filterMap Response.id =
      (List.range ds.length).map (fun (i : Nat) => (i : Int) + 1) := by
    rw [hresp, List.filterMap_map]
    have : (Response.id ∘ Response.created) = some ∘ (fun p => p.ID) := by
      funext p; rfl
    rw [this, List.filterMap_eq_map, withIDs_ids]
    apply List.map_congr_left
    intro i _
    ring
  refine ⟨hresp, ?_, hids, ?_, ?_⟩
  · intro i h
    rw [hresp, List.getElem?_map, withIDs_getElem?, List.getElem?_eq_getElem h]
    simp only [Option.map_some', Option.some.injEq, Response.created.injEq, Product.mk.injEq,
      and_true]
    ring
  · rw [hids, List.pairwise_map]
    exact (List.pairwise_lt_range _).imp (fun h => by omega)
  · intro id hid
    rw [hids] at hid
    obtain ⟨i, _, rfl⟩ := List.mem_map.mp hid
    omega

/-- C1 on the scenario of the spec: the Widget draft created twice is answered
with ID 1 and then ID 2. -/
theorem createAll_sequential_ids_witness :
    (createAll exampleMarshal Store.empty [widget, widget]).1 =
      [.created { widget with ID := 1 }, .created { widget with ID := 2 }] :=
  (createAll_sequential_ids exampleMarshal [widget, widget] (by decide)
    (fun r _ => ⟨_, rfl⟩)).1

/-- C6, as stated, fails at the largest `int`: with `next_id` holding
`9223372036854775807` the request succeeds with that ID, and the counter then
holds `-9223372036854775808`, not the decimal text of the ID plus one. -/
theorem createProduct_counter_wraps :
    (createProduct exampleMarshal CreateFaults.none [(nextIDKey, itoa 9223372036854775807)]
        (.ok widget)).1 = .created { widget with ID := 9223372036854775807 } ∧
    (createProduct exampleMarshal CreateFaults.none [(nextIDKey, itoa 9223372036854775807)]
        (.ok widget)).2.get nextIDKey = some (itoa (-9223372036854775808)) ∧
    (createProduct exampleMarshal CreateFaults.none [(nextIDKey, itoa 9223372036854775807)]
        (.ok widget)).2.get nextIDKey ≠ some (itoa (9223372036854775807 + 1)) := by
  decide

/-- C6, amended. Create postcondition: on a store where `next_id` is absent
(`n = 1`) or holds the decimal text of an integer `n`, whatever ID the draft
carries, every 201 response carries the draft with ID `n`; afterwards
`product:<n>` holds the encoding of that record, `next_id` holds the decimal
text of `n + 1` reduced to the `int` range (`n + 1` itself when `n` is below the
largest `int`, the smallest `int` when `n` is the largest), and every other key
is unchanged. With no engine failure, `n` in the `int` range and the record
encodable, the response is 201. -/
theorem createProduct_post (marshal : Product → Except Err Bytes) (φ : CreateFaults)
    (db : Store) (d : Product) (n : Int)
    (hn : (n = 1 ∧ db.get nextIDKey = none) ∨ db.get nextIDKey = some (itoa n)) :
    (∀ r db', createProduct marshal φ db (.ok d) = (.created r, db') →
      r = { d with ID := n } ∧
      (∃ data, marshal r = .ok data ∧ db'.get (productKey r.ID) = some data) ∧
      db'.get nextIDKey = some (itoa (wrapInt (r.ID + 1))) ∧
      (r.ID < maxInt → db'.get nextIDKey = some (itoa (r.ID + 1))) ∧
      (r.ID = maxInt → db'.get nextIDKey = some (itoa minInt)) ∧
      ∀ k, k ≠ productKey r.ID → k ≠ nextIDKey → db'.get k = db.get k) ∧
    (φ = CreateFaults.none → minInt ≤ n → n ≤ maxInt →
      ∀ data, marshal { d with ID := n } = .ok data →
        ∃ db', createProduct marshal φ db (.ok d) = (.created { d with ID := n }, db')) := by
  constructor
  · intro r db' h
    unfold createProduct at h
    simp only at h
    cases hr : readNextID φ db with
    | error e => simp [hr] at h
    | ok nextID =>
      simp only [hr] at h
      have hid : nextID = n ∧ minInt ≤ n ∧ n ≤ maxInt := by
        rw [readNextID_eq] at hr
        cases hg : φ.get with
        | some msg => simp [hg] at hr
        | none =>
          simp only [hg] at hr
          rcases hn with ⟨hn1, hn2⟩ | hn
          · simp only [hn2, Except.ok.injEq] at hr
            subst hn1
            exact ⟨hr.symm, by simp only [minInt, intSize]; norm_num,
              by simp only [maxInt, intSize]; norm_num⟩
          · simp only [hn] at hr
            cases hv : φ.value with
            | some msg => simp [hv] at hr
            | none =>
              simp only [hv, atoi_itoa_eq] at hr
              by_cases hrange : minInt ≤ n ∧ n ≤ maxInt
              · rw [if_pos hrange] at hr
                exact ⟨(Except.ok.inj hr).symm, hrange⟩
              · rw [if_neg hrange] at hr
                cases hr
      obtain ⟨hid, hlo, hhi⟩ := hid
      subst hid
      rw [saveProduct_eq] at h
      cases hm : marshal { d with ID := nextID } with
      | error e => simp [hm] at h
      | ok data =>
        simp only [hm] at h
        cases h1 : φ.setProduct with
        | some msg => simp [h1] at h
        | none =>
          cases h2 : φ.setNextID with
          | some msg => simp [h1, h2] at h
          | none =>
            cases h3 : φ.commit with
            | some msg => simp [h1, h2, h3] at h
            | none =>
              simp only [h1, h2, h3, Prod.mk.injEq, Response.created.injEq] at h
              obtain ⟨hr', hdb⟩ := h
              subst hr' hdb
              have hnext : ((db.set (productKey nextID) data).set nextIDKey
                  (itoa (wrapInt (nextID + 1)))).get nextIDKey =
                  some (itoa (wrapInt (nextID + 1))) := Store.get_set_same _ _ _
              refine ⟨rfl, ⟨data, hm, ?_⟩, hnext, ?_, ?_, ?_⟩
              · rw [Store.get_set_other _ _ _ _ (productKey_ne_nextIDKey _)]
                exact Store.get_set_same _ _ _
              · intro hlt
                have hfit : minInt ≤ nextID + 1 ∧ nextID + 1 ≤ maxInt := by
                  simp only [minInt, maxInt, intSize] at hlo hlt ⊢
                  norm_num at hlo hlt ⊢
                  omega
                rw [hnext, wrapInt_of_range _ hfit.1 hfit.2]
              · intro heq
                rw [hnext]
                simp only at heq
                rw [heq]
                decide
              · intro k hk1 hk2
                rw [Store.get_set_other _ _ _ _ hk2, Store.get_set_other _ _ _ _ hk1]
  · intro hφ hlo hhi data hm
    subst hφ
    have hr : readNextID CreateFaults.none db = .ok n := by
      rw [readNextID_eq]
      simp only [CreateFaults.none]
      rcases hn with ⟨hn1, hn2⟩ | hn
      · rw [hn2, hn1]
      · rw [hn]
        exact atoi_itoa n hlo hhi
    refine ⟨(db.set (productKey n) data).set nextIDKey (itoa (wrapInt (n + 1))), ?_⟩
    unfold createProduct
    simp only [hr]
    rw [saveProduct_eq]
    simp only [hm, CreateFaults.none]

/-- C6 (amended) at a concrete input: with `next_id` holding `7`, a draft that
carries ID 99 is stored with ID 7 and the counter becomes `8`. -/
theorem createProduct_post_witness :
    (createProduct exampleMarshal CreateFaults.none [(nextIDKey, itoa 7)]
        (.ok { widget with ID := 99 })).1 = .created { widget with ID := 7 } ∧
    (createProduct exampleMarshal CreateFaults.none [(nextIDKey, itoa 7)]
        (.ok { widget with ID := 99 })).2.get nextIDKey = some (itoa 8) :=
  ⟨by decide,
   ((createProduct_post exampleMarshal CreateFaults.none [(nextIDKey, itoa 7)]
      { widget with ID := 99 } 7 (Or.inr (by decide))).1 _ _ rfl).2.2.2.1 (by decide)⟩

/-- C10. Key namespace separation: `id ↦ "product:" ++ decimal(id)` is injective
on all integers; every record key starts with `product:` and the counter key
`next_id` does not, so no record key is the counter key; the prefix scan never
visits the counter entry, and the answer of `getProducts` does not depend on
what the counter entry holds. -/
theorem key_namespaces :
    (∀ a b : Int, productKey a = productKey b ↔ a = b) ∧
    (∀ id : Int, hasPfx (productKey id) productPfx = true) ∧
    hasPfx nextIDKey productPfx = false ∧
    (∀ id : Int, productKey id ≠ nextIDKey) ∧
    (∀ db : Store, ∀ it ∈ (Txn.start db).iterate productPfx, it.key ≠ nextIDKey) ∧
    (∀ (unmarshal : Bytes → Except Err Product) (valueFault : Bytes → Option String)
      (db : Store) (v : Bytes),
      getProducts unmarshal valueFault (db.set nextIDKey v) =
        getProducts unmarshal valueFault db) := by
  refine ⟨fun a b => ⟨productKey_injective a b, fun h => by rw [h]⟩, hasPfx_productKey,
    hasPfx_nextIDKey, productKey_ne_nextIDKey, ?_, ?_⟩
  · intro db it hit h
    simp only [Txn.iterate, Txn.start, Txn.contents, List.foldl_nil, List.mem_map,
      List.mem_filter] at hit
    obtain ⟨kv, ⟨_, hp⟩, rfl⟩ := hit
    simp only at h
    rw [h, hasPfx_nextIDKey] at hp
    cases hp
  · intro unmarshal valueFault db v
    rw [getProducts_eq, getProducts_eq,
      Store.filter_set_of_false db nextIDKey v (fun k => hasPfx k productPfx) hasPfx_nextIDKey]

/-- C4. Listing completeness: for every sequence of `N < 2^63` drafts created in
sequence on the empty store, with no engine failure and every record encoding
and decoding back, the creations succeed and `getProducts` answers 200 with
exactly `N` records which are, up to order, the drafts with IDs `1..N`; for
every `k` in `1..N` exactly one returned record has ID `k`, and it carries the
fields of the `k`-th draft. -/
theorem getProducts_complete (marshal : Product → Except Err Bytes)
    (unmarshal : Bytes → Except Err Product) (ds : List Product)
    (hN : (ds.length : Int) < 2 ^ 63)
    (hrt : ∀ r ∈ withIDs 1 ds, ∃ data, marshal r = .ok data ∧ unmarshal data = .ok r) :
    (createAll marshal Store.empty ds).1 = (withIDs 1 ds).map Response.created ∧
    ∃ ps, getProducts unmarshal (fun _ => none) (createAll marshal Store.empty ds).2 = .ok ps ∧
      ps.length = ds.length ∧
      ps.Perm (withIDs 1 ds) ∧
      ∀ k (h : k < ds.length),
        ps.filter (fun p => decide (p.ID = (k : Int) + 1)) = [{ ds[k] with ID := (k : Int) + 1 }] := by
  refine ⟨createAll_responses marshal ds Store.empty 1 (Or.inl ⟨rfl, rfl⟩) (le_refl 1)
    (by simp only [maxInt, intSize]; norm_num; omega)
    (fun r hr => (hrt r hr).imp (fun _ h => h.1)), ?_⟩
  obtain ⟨ps, hget, hperm, _⟩ := getProducts_after_createAll marshal unmarshal ds hN hrt
  refine ⟨ps, hget, by rw [hperm.length_eq, withIDs_length], hperm, ?_⟩
  intro k h
  have hf := hperm.filter (fun p => decide (p.ID = (k : Int) + 1))
  have hw := withIDs_filter 1 ds k h
  have e : (1 : Int) + (k : Int) = (k : Int) + 1 := by ring
  rw [e] at hw
  rw [hw] at hf
  exact List.perm_singleton.mp hf

/-- C4 at a concrete input: a Widget and a Gadget are created and listed back
with IDs 1 and 2 and their own fields. -/
theorem getProducts_complete_witness :
    getProducts exampleUnmarshal (fun _ => none)
        (createAll exampleMarshal Store.empty [widget, gadget]).2 =
      .ok [{ widget with ID := 1 }, { gadget with ID := 2 }] ∧
    ∃ ps, getProducts exampleUnmarshal (fun _ => none)
        (createAll exampleMarshal Store.empty [widget, gadget]).2 = .ok ps ∧
      ps.length = 2 ∧ ps.Perm [{ widget with ID := 1 }, { gadget with ID := 2 }] :=
  ⟨by decide,
   (getProducts_complete exampleMarshal exampleUnmarshal [widget, gadget] (by decide)
      (by
        intro r hr
        simp only [withIDs, List.mem_cons, List.mem_singleton, List.not_mem_nil, or_false] at hr
        rcases hr with rfl | rfl
        · exact ⟨_, rfl, by decide⟩
        · exact ⟨_, rfl, by decide⟩)).2.imp
     (fun _ h => ⟨h.1, h.2.1, h.2.2.1⟩)⟩

/-- C3, as stated, fails at `N = 10`: after ten creations the listing is in key
order, where `product:10` comes before `product:2`; the second record returned
has ID 10. -/
theorem getProducts_order_ten :
    (createAll exampleMarshal Store.empty (List.replicate 10 widget)).1 =
      [1, 2, 3, 4, 5, 6, 7, 8, 9, 10].map (fun i => .created { widget with ID := i }) ∧
    getProducts exampleUnmarshal (fun _ => none)
        (createAll exampleMarshal Store.empty (List.replicate 10 widget)).2 =
      .ok ([1, 10, 2, 3, 4, 5, 6, 7, 8, 9].map (fun i => { widget with ID := i })) := by
  decide

/-- C3, amended. Listing order: after `N < 2^63` sequential creations on the
empty store the records are returned in ascending byte-lexicographic order of
their keys `product:<decimal ID>`; for `N ≤ 9` this is ascending ID order, the
`i`-th record returned being the `i`-th draft with ID `i`. -/
theorem getProducts_key_order (marshal : Product → Except Err Bytes)
    (unmarshal : Bytes → Except Err Product) (ds : List Product)
    (hN : (ds.length : Int) < 2 ^ 63)
    (hrt : ∀ r ∈ withIDs 1 ds, ∃ data, marshal r = .ok data ∧ unmarshal data = .ok r) :
    ∃ ps, getProducts unmarshal (fun _ => none) (createAll marshal Store.empty ds).2 = .ok ps ∧
      ps.Pairwise (fun p q => bytesLt (productKey p.ID) (productKey q.ID) = true) ∧
      (ds.length ≤ 9 → ∀ i (h : i < ds.length),
        ps[i]? = some { ds[i] with ID := (i : Int) + 1 }) := by
  obtain ⟨ps, hget, hperm, hsorted⟩ := getProducts_after_createAll marshal unmarshal ds hN hrt
  refine ⟨ps, hget, hsorted, ?_⟩
  intro h9 i h
  have hrange : ∀ p ∈ ps, 0 ≤ p.ID ∧ p.ID ≤ 9 := by
    intro p hp
    have := mem_withIDs 1 ds p (hperm.subset hp)
    omega
  have hs : ps.Pairwise (fun p q => p.ID < q.ID) :=
    hsorted.imp_of_mem (fun hp hq hpq => productKey_lt_digit _ _ (hrange _ hp) (hrange _ hq) hpq)
  haveI : IsAntisymm Product (fun p q => p.ID < q.ID) := ⟨fun a b h1 h2 => by omega⟩
  have heq : ps = withIDs 1 ds := List.eq_of_perm_of_sorted hperm hs (withIDs_pairwise 1 ds)
  rw [heq, withIDs_getElem?, List.getElem?_eq_getElem h]
  simp only [Option.map_some', Option.some.injEq, Product.mk.injEq, and_true]
  ring

/-- C3 (amended) at a concrete input: a Widget and a Gadget are listed in the
order of their IDs 1 and 2. -/
theorem getProducts_key_order_witness :
    ∃ ps, getProducts exampleUnmarshal (fun _ => none)
        (createAll exampleMarshal Store.empty [widget, gadget]).2 = .ok ps ∧
      ps[0]? = some { widget with ID := 1 } ∧ ps[1]? = some { gadget with ID := 2 } :=
  (getProducts_key_order exampleMarshal exampleUnmarshal [widget, gadget] (by decide)
      (by
        intro r hr
        simp only [withIDs, List.mem_cons, List.mem_singleton, List.not_mem_nil, or_false] at hr
        rcases hr with rfl | rfl
        · exact ⟨_, rfl, by decide⟩
        · exact ⟨_, rfl, by decide⟩)).imp
    (fun _ h => ⟨h.1, h.2.2 (by decide) 0 (by decide), h.2.2 (by decide) 1 (by decide)⟩)

/-- C2 fails on the code: two requests whose transactions interleave as
read, read, write, write on the empty store are both answered 201 with ID 1,
and the second write replaces the first request's record: the store ends with
a single record, the Gadget, and the counter at 2. -/
theorem concurrent_creates_share_id :
    (runSchedule exampleMarshal Store.empty [.bound widget, .bound gadget] [0, 1, 0, 1]).2 =
      [.finished (.created { widget with ID := 1 }),
       .finished (.created { gadget with ID := 1 })] ∧
    getProducts exampleUnmarshal (fun _ => none)
        (runSchedule exampleMarshal Store.empty [.bound widget, .bound gadget] [0, 1, 0, 1]).1 =
      .ok [{ gadget with ID := 1 }] ∧
    (runSchedule exampleMarshal Store.empty [.bound widget, .bound gadget] [0, 1, 0, 1]).1.get
        nextIDKey = some (itoa 2) := by
  decide

end Inventory
